import Mathlib

/-!
Verification of the cascading autocomplete core of the stockflow repository.

The TypeScript sources are shallowly embedded:
* JavaScript strings are modeled as `List Char` (`Str`).
* `sessionStorage` is modeled as an association list of keys and stored
  values, in storage order; a stored value either parses as a `CacheEntry`
  or is malformed.
* The external Fuse.js library (an npm dependency, not repository code) is
  modeled abstractly: the fuzzy ranking pipeline is a parameter
  `FuseRank`, and the match-index extraction of `highlightMatches` is a
  parameter `FuseIndices`.  Theorems assume of them only basic contracts
  (returned options are drawn from the input; match spans are ordered and
  in bounds) that Fuse.js documents.
* The React hook `useDebouncedSearch` is modeled as an explicit state
  machine on the hook's state with events for input changes, debounce
  timer expiry, and settlement of an issued network request.
-/

namespace Stockflow

/-! ## JS string model -/

abbrev Str := List Char

/-- Models `s.toLowerCase()`. -/
def toLowerStr (s : Str) : Str := s.map Char.toLower

/-- Models `s.trim()`: whitespace removed from both ends. -/
def trimStr (s : Str) : Str :=
  ((s.dropWhile Char.isWhitespace).reverse.dropWhile Char.isWhitespace).reverse

/-- The guard `!query || query.trim().length === 0` shared by all four
search functions of `src/lib/utils/fuzzy-search.ts`. -/
def isBlankQuery (q : Str) : Bool := q.isEmpty || (trimStr q).isEmpty

/-! ## Data model: combobox options (src/lib/types/combobox.ts) -/

/-- An option `{ value, label, metadata? }`.  The `metadata` map is never
consulted by the embedded operations (search keys are `label`, `value`;
the cache stores option arrays opaquely). -/
structure ComboboxOption where
  value : Str
  label : Str
  metadata : Option (List (Str × Str)) := none
deriving DecidableEq, Repr

/-! ## Ranking engine (src/lib/utils/fuzzy-search.ts) -/

/-- Abstract model of the Fuse.js part of `fuzzySearch`: index creation,
`fuse.search(query)`, the score sort, and the `.item` projection. -/
abbrev FuseRank := Str → List ComboboxOption → List ComboboxOption

/-- `fuzzySearch(query, options, config)`: blank queries return the input
unchanged, otherwise the Fuse.js pipeline runs. -/
def fuzzySearch (fuse : FuseRank) (query : Str)
    (options : List ComboboxOption) : List ComboboxOption :=
  if isBlankQuery query then options else fuse query options

/-- `lowerLabel === lowerQuery || lowerValue === lowerQuery` in
`rankSearchResults`. -/
def isExactMatch (query : Str) (o : ComboboxOption) : Bool :=
  toLowerStr o.label == toLowerStr query || toLowerStr o.value == toLowerStr query

/-- `lowerLabel.startsWith(lowerQuery) || lowerValue.startsWith(lowerQuery)`
in `rankSearchResults`. -/
def isPrefixMatch (query : Str) (o : ComboboxOption) : Bool :=
  (toLowerStr query).isPrefixOf (toLowerStr o.label)
    || (toLowerStr query).isPrefixOf (toLowerStr o.value)

/-- The `options.forEach` loop of `rankSearchResults`: partition into
exact, prefix and remaining buckets, preserving input order in each. -/
def partitionBuckets (query : Str) :
    List ComboboxOption →
      List ComboboxOption × List ComboboxOption × List ComboboxOption
  | [] => ([], [], [])
  | o :: rest =>
    let (e, p, f) := partitionBuckets query rest
    if isExactMatch query o then (o :: e, p, f)
    else if isPrefixMatch query o then (e, o :: p, f)
    else (e, p, o :: f)

/-- `rankSearchResults(query, options)`:
`[...exactMatches, ...prefixMatches, ...fuzzySearch(query, fuzzyMatches)]`. -/
def rankSearchResults (fuse : FuseRank) (query : Str)
    (options : List ComboboxOption) : List ComboboxOption :=
  if isBlankQuery query then options
  else
    let (e, p, f) := partitionBuckets query options
    e ++ p ++ fuzzySearch fuse query f

/-- Helper for `query.toLowerCase().split(/\s+/).filter(t => t.length > 0)`:
`acc` is the non-whitespace run currently being read. -/
def splitWsAux : Str → Str → List Str
  | [], acc => if acc.isEmpty then [] else [acc]
  | c :: rest, acc =>
    if c.isWhitespace then
      if acc.isEmpty then splitWsAux rest [] else acc :: splitWsAux rest []
    else splitWsAux rest (acc ++ [c])

/-- Maximal non-whitespace runs of `s`, in order. -/
def splitWs (s : Str) : List Str := splitWsAux s []

/-- The token list of `multiTokenSearch`. -/
def tokensOf (query : Str) : List Str := splitWs (toLowerStr query)

/-- `` `${option.label} ${option.value}`.toLowerCase() ``. -/
def searchTextOf (o : ComboboxOption) : Str :=
  toLowerStr (o.label ++ [' '] ++ o.value)

/-- `big.includes(small)`: contiguous-substring test. -/
def includesStr (big small : Str) : Bool := decide (small <:+: big)

/-- `tokens.every(token => searchText.includes(token))`. -/
def matchesAllTokens (query : Str) (o : ComboboxOption) : Bool :=
  (tokensOf query).all (fun t => includesStr (searchTextOf o) t)

/-- `multiTokenSearch(query, options)`. -/
def multiTokenSearch (query : Str)
    (options : List ComboboxOption) : List ComboboxOption :=
  if isBlankQuery query then options
  else if (tokensOf query).isEmpty then options
  else options.filter (matchesAllTokens query)

/-- `smartSearch(query, options, config)`: multi-token filter, then
ranking. -/
def smartSearch (fuse : FuseRank) (query : Str)
    (options : List ComboboxOption) : List ComboboxOption :=
  if isBlankQuery query then options
  else rankSearchResults fuse query (multiTokenSearch query options)

/-! ## Match highlighting (highlightMatches) -/

/-- A segment `{ text, isMatch }` of `HighlightedMatch[]`. -/
structure HighlightedMatch where
  text : Str
  isMatch : Bool
deriving DecidableEq, Repr

/-- `text.slice(a, b)` for non-negative arguments (out-of-range indices
clamp, and an empty slice results when `b ≤ a`). -/
def sliceStr (s : Str) (a b : Nat) : Str := (s.take b).drop a

/-- `[...matches.indices].sort((a, b) => a[0] - b[0])`, modeled by a
sorting function on the first components. -/
def sortIndicesByStart (l : List (Nat × Nat)) : List (Nat × Nat) :=
  List.insertionSort (fun x y => x.1 ≤ y.1) l

/-- The `sortedIndices.forEach` loop plus the trailing-segment push of
`highlightMatches`; `lastIndex` is the loop variable of the source. -/
def buildSegments (text : Str) : List (Nat × Nat) → Nat → List HighlightedMatch
  | [], lastIndex =>
    if lastIndex < text.length then [⟨text.drop lastIndex, false⟩] else []
  | (s, e) :: rest, lastIndex =>
    (if lastIndex < s then [⟨sliceStr text lastIndex s, false⟩] else [])
      ++ ⟨sliceStr text s (e + 1), true⟩ :: buildSegments text rest (e + 1)

/-- Abstract model of Fuse.js index extraction in `highlightMatches`:
`none` when `results` is empty or `matches`/`indices` are absent. -/
abbrev FuseIndices := Str → Str → Option (List (Nat × Nat))

/-- `highlightMatches(text, query)`. -/
def highlightMatches (fuseIdx : FuseIndices) (text query : Str) :
    List HighlightedMatch :=
  if isBlankQuery query then [⟨text, false⟩]
  else
    match fuseIdx text query with
    | none => [⟨text, false⟩]
    | some idxs => buildSegments text (sortIndicesByStart idxs) 0

/-- Concatenation of the `text` fields of a segment list. -/
def concatSegments (segs : List HighlightedMatch) : Str :=
  (segs.map (·.text)).flatten

/-! ## Cache layer (src/lib/utils/cache.ts)

`sessionStorage` is an association list of storage keys and stored values
in storage order; `setItem` on a present key replaces in place, on an
absent key appends.  A stored value is the serialized form of a
`CacheEntry` (serialization is modeled as the identity, `Val.ok`) or a
string that fails `JSON.parse` (`Val.bad`).  Storage quota is not
modeled: `setItem` always succeeds, so the quota-exceeded retry path of
`setCacheEntry` is never taken. -/

/-- A `CacheEntry`: `{ data, etag, timestamp, key }`.  Timestamps are
integers (milliseconds); `Int` so that arithmetic against a possibly
negative `ttl` is exact. -/
structure CacheEntry where
  data : List ComboboxOption
  etag : String
  timestamp : Int
  key : String
deriving DecidableEq, Repr

/-- A stored string: either it parses as a `CacheEntry` or `JSON.parse`
throws on it. -/
inductive Val where
  | ok (e : CacheEntry)
  | bad
deriving DecidableEq, Repr

abbrev Storage := List (String × Val)

/-- `CacheConfig`: `{ ttl, maxEntries, keyPrefix }` (the `Partial` merge
with `DEFAULT_CONFIG` is resolved, so a full record is passed). -/
structure CacheConfig where
  ttl : Int
  maxEntries : Nat
  keyPrefix : String
deriving DecidableEq, Repr

/-- `sessionStorage.getItem(k)`. -/
def getItem : Storage → String → Option Val
  | [], _ => none
  | (k', v) :: rest, k => if k' = k then some v else getItem rest k

/-- `sessionStorage.setItem(k, v)`: replace in place, else append. -/
def setItem : Storage → String → Val → Storage
  | [], k, v => [(k, v)]
  | (k', v') :: rest, k, v =>
    if k' = k then (k, v) :: rest else (k', v') :: setItem rest k v

/-- `sessionStorage.removeItem(k)`. -/
def removeItem : Storage → String → Storage
  | [], _ => []
  | (k', v) :: rest, k =>
    if k' = k then removeItem rest k else (k', v) :: removeItem rest k

/-- Real `sessionStorage` never holds two values under one key; the
embedding carries this as an explicit well-formedness predicate. -/
def keysNodup (st : Storage) : Prop := (st.map Prod.fst).Nodup

instance (st : Storage) : Decidable (keysNodup st) := by
  unfold keysNodup
  infer_instance

/-- `k.startsWith(pre)`, evaluated on the strings' character lists. -/
def startsWithStr (k pre : String) : Bool := pre.data.isPrefixOf k.data

/-- The number of entries stored under the cache's key namespace. -/
def prefixCount (pre : String) (st : Storage) : Nat :=
  (st.filter (fun p => startsWithStr p.1 pre)).length

/-- A primitive JSON value, as the filter records passed to
`generateCacheKey` hold (`q` is a string; parent filter values are
strings, numbers or null by the time they reach the filter object). -/
inductive Jval where
  | str (s : String)
  | num (n : Int)
  | jnull
deriving DecidableEq, Repr

/-- `JSON.stringify` of a primitive value.  String escaping is not
modeled: the embedding is used only on strings without characters that
JSON escapes. -/
def serializeJval : Jval → String
  | Jval.str s => "\"" ++ s ++ "\""
  | Jval.num n => toString n
  | Jval.jnull => "null"

/-- `JSON.stringify` of an object literal: fields are emitted in the
object's own property order. -/
def stringifyObj (fields : List (String × Jval)) : String :=
  "\x7b"
    ++ String.intercalate ","
        (fields.map (fun kv => "\"" ++ kv.1 ++ "\":" ++ serializeJval kv.2))
    ++ "\x7d"

/-- `generateCacheKey(endpoint, filters)` builds
`` `${endpoint}:${filterString}` `` where `filterString` is
`JSON.stringify(filters)` — see `stringifyObj` below. -/
def generateCacheKey (endpoint : String)
    (filters : Option (List (String × Jval))) : String :=
  endpoint ++ ":" ++ (match filters with
    | some fs => stringifyObj fs
    | none => "")

/-- `getCacheEntry(key, config)`: returns the parsed entry unless absent,
malformed (the `catch` logs and returns `null` — the item is not
removed), or expired (removed, then `null`).  The possibly updated
storage is returned alongside. -/
def getCacheEntry (cfg : CacheConfig) (key : String) (now : Int)
    (st : Storage) : Option CacheEntry × Storage :=
  let storageKey := cfg.keyPrefix ++ key
  match getItem st storageKey with
  | none => (none, st)
  | some Val.bad => (none, st)
  | some (Val.ok e) =>
    if now - e.timestamp > cfg.ttl then (none, removeItem st storageKey)
    else (some e, st)

/-- The entry-collection loop of `evictOldEntries`: pairs
`{ key, timestamp }` for every storage key under the prefix, in storage
order.  Only called when no prefixed value is malformed. -/
def collectEntries (pre : String) (st : Storage) : List (String × Int) :=
  st.filterMap (fun p =>
    if startsWithStr p.1 pre then
      match p.2 with
      | Val.ok e => some (p.1, e.timestamp)
      | Val.bad => none
    else none)

/-- `entries.sort((a, b) => a.timestamp - b.timestamp)`. -/
def sortByTimestamp (l : List (String × Int)) : List (String × Int) :=
  List.insertionSort (fun x y => x.2 ≤ y.2) l

instance : IsTotal (String × Int) (fun x y => x.2 ≤ y.2) :=
  ⟨fun a b => Int.le_total a.2 b.2⟩

instance : IsTrans (String × Int) (fun x y => x.2 ≤ y.2) :=
  ⟨fun _ _ _ h1 h2 => Int.le_trans h1 h2⟩

/-- `evictOldEntries(maxEntries, keyPrefix)`.  If any prefixed stored
value fails `JSON.parse`, the exception aborts the whole routine (its
`catch` only logs), so nothing is evicted.  Otherwise, when at least
`maxEntries` entries are stored, the `entries.length - maxEntries + 1`
entries with the smallest timestamps are removed. -/
def evictOldEntries (maxEntries : Nat) (pre : String) (st : Storage) :
    Storage :=
  if st.any (fun p => startsWithStr p.1 pre && p.2 == Val.bad) then st
  else
    let entries := collectEntries pre st
    if maxEntries ≤ entries.length then
      let sorted := sortByTimestamp entries
      let toRemove := sorted.take (entries.length - maxEntries + 1)
      toRemove.foldl (fun acc kt => removeItem acc kt.1) st
    else st

/-- `setCacheEntry(key, data, etag, config)` (storage quota not modeled,
so the happy path always completes: evict, then write). -/
def setCacheEntry (cfg : CacheConfig) (key : String)
    (data : List ComboboxOption) (etag : String) (now : Int)
    (st : Storage) : Storage :=
  let storageKey := cfg.keyPrefix ++ key
  let st1 := evictOldEntries cfg.maxEntries cfg.keyPrefix st
  setItem st1 storageKey (Val.ok ⟨data, etag, now, key⟩)

/-! ## Fetch scheduler (src/lib/hooks/use-debounced-search.ts)

The hook is modeled as a state machine.  Events: an input change (a call
of `refetch` through the `useEffect`), expiry of the armed debounce
timer, and the resumption of `fetchData` after its awaited network call
settles.  Between suspension points JavaScript runs synchronously, so
each event is one atomic transition.  Aborting a controller makes the
pending `fetch`/body read reject with `AbortError`, which `fetchData`
catches; the `finally` block still runs.  The cache consulted by
`fetchData` before fetching is abstracted into `cacheLookup` (the result
of `getCacheEntry` for the query's cache key at that moment); the
`setCacheEntry` call on success only touches storage, which is not part
of the hook's state. -/

/-- Hook options that the modeled paths read: `enabled`, `minChars`, and
the cache's answer per query. -/
structure SchedConfig where
  enabled : Bool
  minChars : Nat
  cacheLookup : Str → Option (List ComboboxOption)

/-- The hook's state: the three `useState` cells, the debounce timer
(`timeoutRef`, carrying the attempt it would start), the current abort
controller (`abortControllerRef`, by attempt id), the set of aborted
controllers, the issued-but-unsettled requests, and a fresh-id counter. -/
structure SchedState where
  data : List ComboboxOption
  isLoading : Bool
  error : Option String
  timer : Option (Nat × Str)
  ctrl : Option Nat
  abortedIds : List Nat
  outstanding : List (Nat × Str)
  nextId : Nat
deriving DecidableEq, Repr

/-- The initial hook state: `data = []`, `isLoading = false`,
`error = null`, no timer, no controller. -/
def initState : SchedState :=
  { data := [], isLoading := false, error := none, timer := none,
    ctrl := none, abortedIds := [], outstanding := [], nextId := 0 }

/-- How an issued network call resolves: `response.ok` with a parsed
`result.data`, or an HTTP/transport error (`AbortError` is not an
outcome — it is forced by the controller being aborted). -/
inductive FetchOutcome where
  | success (data : List ComboboxOption)
  | failure (msg : String)
deriving DecidableEq, Repr

/-- The scheduler's events. -/
inductive SchedEvent where
  | input (q : Str)
  | fire
  | settle (id : Nat) (out : FetchOutcome)
deriving DecidableEq, Repr

/-- `refetch()`: bail out when disabled; abort the previous controller
and clear the pending timeout; below `minChars`, clear the data and stop
loading; otherwise start loading, create a fresh controller and arm the
debounce timer. -/
def refetchStep (cfg : SchedConfig) (q : Str) (s : SchedState) : SchedState :=
  if cfg.enabled = false then s
  else
    let aborted := match s.ctrl with
      | some c => c :: s.abortedIds
      | none => s.abortedIds
    if q.length < cfg.minChars then
      { s with abortedIds := aborted, timer := none,
               data := [], isLoading := false }
    else
      { s with abortedIds := aborted, timer := some (s.nextId, q),
               ctrl := some s.nextId, isLoading := true,
               nextId := s.nextId + 1 }

/-- Expiry of the armed debounce timer: run `fetchData` up to its first
suspension point — on a cache hit the data is applied synchronously and
no request is issued; on a miss the network call for this attempt
becomes outstanding. -/
def fireStep (cfg : SchedConfig) (s : SchedState) : SchedState :=
  match s.timer with
  | none => s
  | some (id, q) =>
    match cfg.cacheLookup q with
    | some d =>
      { s with timer := none, data := d, isLoading := false }
    | none =>
      { s with timer := none, outstanding := (id, q) :: s.outstanding }

/-- Resumption of `fetchData` after the awaited call settles.  If the
attempt's controller was aborted, the rejection is an `AbortError`: the
`catch` returns early, but the `finally` still runs `setIsLoading(false)`.
Otherwise success applies the data and clears the error, and failure
records the error; both end loading. -/
def settleStep (id : Nat) (out : FetchOutcome) (s : SchedState) : SchedState :=
  if s.outstanding.any (fun r => r.1 == id) then
    let rest := s.outstanding.filter (fun r => r.1 != id)
    if id ∈ s.abortedIds then
      { s with outstanding := rest, isLoading := false }
    else
      match out with
      | FetchOutcome.success d =>
        { s with outstanding := rest, data := d, error := none,
                 isLoading := false }
      | FetchOutcome.failure m =>
        { s with outstanding := rest, error := some m, isLoading := false }
  else s

/-- One transition of the scheduler. -/
def schedStep (cfg : SchedConfig) : SchedEvent → SchedState → SchedState
  | SchedEvent.input q => refetchStep cfg q
  | SchedEvent.fire => fireStep cfg
  | SchedEvent.settle id out => settleStep id out

/-- A run of the scheduler from `initState`. -/
def runTrace (cfg : SchedConfig) (evs : List SchedEvent) : SchedState :=
  evs.foldl (fun s ev => schedStep cfg ev s) initState

/-! ## Claim-level predicates and concrete instances -/

/-- An option that is a case-insensitive prefix match but not an exact
match (the second bucket of `rankSearchResults`). -/
def prefixOnlyMatch (query : Str) (o : ComboboxOption) : Bool :=
  !isExactMatch query o && isPrefixMatch query o

/-- An option that is neither an exact nor a prefix match: it can reach
the output only through the fuzzy bucket. -/
def fuzzyOnlyMatch (query : Str) (o : ComboboxOption) : Bool :=
  !isExactMatch query o && !isPrefixMatch query o

/-- Claim C5's ordering property of a result list: every exact match
sits strictly before every prefix-only match, and every prefix-only
match strictly before every fuzzy-only option. -/
def RanksProperly (query : Str) (res : List ComboboxOption) : Prop :=
  (∀ i j : Fin res.length, isExactMatch query (res.get i) = true →
      prefixOnlyMatch query (res.get j) = true → (i : Nat) < (j : Nat))
  ∧ (∀ i j : Fin res.length, prefixOnlyMatch query (res.get i) = true →
      fuzzyOnlyMatch query (res.get j) = true → (i : Nat) < (j : Nat))

instance (query : Str) (res : List ComboboxOption) :
    Decidable (RanksProperly query res) := by
  unfold RanksProperly
  infer_instance

/-- Claim C1 as stated: settling a superseded (aborted) attempt changes
none of the field's `data`, `error` and `isLoading`. -/
def SupersededNeverMutates : Prop :=
  ∀ (cfg : SchedConfig) (s : SchedState) (id : Nat) (out : FetchOutcome),
    id ∈ s.abortedIds →
      (schedStep cfg (SchedEvent.settle id out) s).data = s.data
      ∧ (schedStep cfg (SchedEvent.settle id out) s).error = s.error
      ∧ (schedStep cfg (SchedEvent.settle id out) s).isLoading = s.isLoading

/-- Fuse.js's contract for match spans, relative to the state of
`highlightMatches`'s loop from position `lo`: each `[start, end]` pair
satisfies `start ≤ end`, ends inside the text, and starts no earlier
than `lo`; consecutive pairs do not overlap. -/
def validSpans (text : Str) : List (Nat × Nat) → Nat → Bool
  | [], _ => true
  | (s, e) :: rest, lo =>
    decide (lo ≤ s) && decide (s ≤ e) && decide (e + 1 ≤ text.length)
      && validSpans text rest (e + 1)

/-- A trivial instance of the abstract Fuse ranking: keep the input.  It
satisfies the only contract the theorems assume (outputs are drawn from
the input list). -/
def fuseKeep : FuseRank := fun _ l => l

/-- Scheduler configuration for the concrete traces: enabled, two-char
minimum, the cache always missing. -/
def cfgNoCache : SchedConfig :=
  { enabled := true, minChars := 2, cacheLookup := fun _ => none }

/-- The race trace of claim C1: type `"ab"`, let the debounce timer fire
and the request go out, then type `"abc"` (which aborts attempt 0 and
arms attempt 1). -/
def raceState : SchedState :=
  runTrace cfgNoCache
    [SchedEvent.input ['a', 'b'], SchedEvent.fire,
     SchedEvent.input ['a', 'b', 'c']]

/-- A non-empty, whitespace-only query. -/
def spaceQuery : Str := [' ']

/-- Label `"  "` (two spaces): a prefix match for `spaceQuery` but not
an exact one. -/
def optDoubleSpace : ComboboxOption := ⟨['x'], [' ', ' '], none⟩

/-- Label `" "`: an exact match for `spaceQuery`. -/
def optSpace : ComboboxOption := ⟨['y'], [' '], none⟩

/-- Cache configuration with a zero TTL (claim C3's boundary). -/
def cfgZeroTtl : CacheConfig := { ttl := 0, maxEntries := 50, keyPrefix := "p" }

/-- Cache configuration with capacity two (claim C2's counterexample). -/
def cfgCapTwo : CacheConfig := { ttl := 1000, maxEntries := 2, keyPrefix := "p" }

/-- Default-shaped cache configuration over prefix `"p"`. -/
def cfgPlain : CacheConfig := { ttl := 1000, maxEntries := 50, keyPrefix := "p" }

/-- A storage holding one well-formed and one malformed entry under the
prefix `"p"`. -/
def stWithBad : Storage :=
  [("pa", Val.ok ⟨[], "t1", 0, "a"⟩), ("pb", Val.bad)]

/-- A storage holding only a malformed entry under the key the claim C8
get will probe. -/
def stOneBad : Storage := [("pk", Val.bad)]

/-- The filter bindings `{a: 1, b: 2}` in the two enumeration orders of
claim C4. -/
def filtersAB : List (String × Jval) := [("a", Jval.num 1), ("b", Jval.num 2)]

/-- See `filtersAB`. -/
def filtersBA : List (String × Jval) := [("b", Jval.num 2), ("a", Jval.num 1)]

/-! ## Storage lemmas -/

/-- A `setItem` is observable at its own key. -/
theorem getItem_setItem_self (st : Storage) (k : String) (v : Val) :
    getItem (setItem st k v) k = some v := by
  induction st with
  | nil => simp [setItem, getItem]
  | cons p rest ih =>
    obtain ⟨k', v'⟩ := p
    by_cases h : k' = k
    · simp [setItem, getItem, h]
    · simp [setItem, getItem, h, ih]

/-- A present key is never a `getItem` miss. -/
theorem getItem_ne_none_of_mem {st : Storage} {k : String} {v : Val}
    (h : (k, v) ∈ st) : getItem st k ≠ none := by
  induction st with
  | nil => cases h
  | cons p rest ih =>
    obtain ⟨k0, v0⟩ := p
    rcases List.mem_cons.mp h with h | h
    · injection h with h1 h2
      simp [getItem, h1]
    · by_cases h0 : k0 = k
      · simp [getItem, h0]
      · simpa [getItem, h0] using ih h

/-- `removeItem` answers lookups like the original storage, except at the
removed key. -/
theorem getItem_removeItem (st : Storage) (k k' : String) :
    getItem (removeItem st k) k' = if k' = k then none else getItem st k' := by
  induction st with
  | nil =>
    simp only [removeItem, getItem]
    split <;> rfl
  | cons p rest ih =>
    obtain ⟨k0, v0⟩ := p
    by_cases h0 : k0 = k
    · rw [show removeItem ((k0, v0) :: rest) k = removeItem rest k by
        simp [removeItem, h0], ih]
      by_cases hk : k' = k
      · simp [hk]
      · have hne : k0 ≠ k' := by
          rw [h0]
          exact fun h => hk h.symm
        simp [hk, getItem, hne]
    · rw [show removeItem ((k0, v0) :: rest) k = (k0, v0) :: removeItem rest k by
        simp [removeItem, h0]]
      by_cases hk0 : k0 = k'
      · have hk : ¬ (k' = k) := by
          intro h
          exact h0 (hk0.trans h)
        simp [getItem, hk0, hk]
      · simp [getItem, hk0, ih]

/-- Removing a key can only reduce the number of prefixed entries. -/
theorem prefixCount_removeItem_le (pre : String) (st : Storage) (k : String) :
    prefixCount pre (removeItem st k) ≤ prefixCount pre st := by
  induction st with
  | nil => simp [removeItem]
  | cons p rest ih =>
    obtain ⟨k0, v0⟩ := p
    by_cases h0 : k0 = k
    · rw [show removeItem ((k0, v0) :: rest) k = removeItem rest k by
        simp [removeItem, h0]]
      refine ih.trans ?_
      simp only [prefixCount, List.filter_cons]
      split
      · simp
      · exact Nat.le_refl _
    · rw [show removeItem ((k0, v0) :: rest) k = (k0, v0) :: removeItem rest k by
        simp [removeItem, h0]]
      simp only [prefixCount, List.filter_cons]
      split
      · simpa using ih
      · exact ih

/-- Removing a present prefixed key strictly reduces the prefixed entry
count. -/
theorem prefixCount_removeItem_lt (pre : String) (st : Storage) (k : String)
    (hk : startsWithStr k pre = true) (hp : getItem st k ≠ none) :
    prefixCount pre (removeItem st k) + 1 ≤ prefixCount pre st := by
  induction st with
  | nil => simp [getItem] at hp
  | cons p rest ih =>
    obtain ⟨k0, v0⟩ := p
    by_cases h0 : k0 = k
    · rw [show removeItem ((k0, v0) :: rest) k = removeItem rest k by
        simp [removeItem, h0]]
      have hsw0 : startsWithStr k0 pre = true := h0 ▸ hk
      simp only [prefixCount, List.filter_cons, hsw0, if_pos]
      have := prefixCount_removeItem_le pre rest k
      simp only [prefixCount] at this
      simpa using Nat.add_le_add_right this 1
    · have hp' : getItem rest k ≠ none := by
        simpa [getItem, h0] using hp
      rw [show removeItem ((k0, v0) :: rest) k = (k0, v0) :: removeItem rest k by
        simp [removeItem, h0]]
      simp only [prefixCount, List.filter_cons]
      have := ih hp'
      simp only [prefixCount] at this
      split
      · simpa using Nat.add_le_add_right this 0 |>.trans (by omega)
      · exact this

/-- Lookup after the eviction fold: a key answers `none` exactly when it
was one of the removed keys or already missing. -/
theorem getItem_foldRemove (ks : List (String × Int)) :
    ∀ (st : Storage) (k : String),
      getItem (ks.foldl (fun acc kt => removeItem acc kt.1) st) k
        = if ks.any (fun kt => kt.1 == k) then none else getItem st k := by
  induction ks with
  | nil =>
    intro st k
    simp
  | cons kt ks ih =>
    intro st k
    rw [List.foldl_cons, ih]
    by_cases h : ks.any (fun x => x.1 == k) = true
    · simp [h]
    · rw [Bool.not_eq_true] at h
      by_cases hk : kt.1 = k
      · simp [h, hk, getItem_removeItem]
      · have : ¬ (k = kt.1) := fun hcon => hk hcon.symm
        simp [h, hk, getItem_removeItem, this]

/-- The eviction fold removes at least as many prefixed entries as it is
given pairwise distinct, present, prefixed keys. -/
theorem prefixCount_foldRemove (pre : String) (ks : List (String × Int)) :
    ∀ st : Storage,
      (∀ kt ∈ ks, startsWithStr kt.1 pre = true ∧ getItem st kt.1 ≠ none) →
      (ks.map Prod.fst).Nodup →
      prefixCount pre (ks.foldl (fun acc kt => removeItem acc kt.1) st)
          + ks.length
        ≤ prefixCount pre st := by
  induction ks with
  | nil =>
    intro st _ _
    simp
  | cons kt ks ih =>
    intro st hpres hnd
    rw [List.foldl_cons]
    have hhead := hpres kt (List.mem_cons_self kt ks)
    have hstep := prefixCount_removeItem_lt pre st kt.1 hhead.1 hhead.2
    have hnd' : (ks.map Prod.fst).Nodup := (List.nodup_cons.mp hnd).2
    have hkt : kt.1 ∉ ks.map Prod.fst := (List.nodup_cons.mp hnd).1
    have hpres' : ∀ x ∈ ks, startsWithStr x.1 pre = true
        ∧ getItem (removeItem st kt.1) x.1 ≠ none := by
      intro x hx
      have hx1 := hpres x (List.mem_cons_of_mem kt hx)
      have hne : x.1 ≠ kt.1 := by
        intro hcon
        exact hkt (hcon ▸ List.mem_map_of_mem Prod.fst hx)
      rw [getItem_removeItem, if_neg hne]
      exact hx1
    have := ih (removeItem st kt.1) hpres' hnd'
    simp only [List.length_cons]
    omega

/-- When no prefixed value is malformed, the eviction scan sees exactly
the prefixed entries. -/
theorem length_collectEntries (pre : String) (st : Storage)
    (hok : ∀ p ∈ st, startsWithStr p.1 pre = true → p.2 ≠ Val.bad) :
    (collectEntries pre st).length = prefixCount pre st := by
  induction st with
  | nil => rfl
  | cons p rest ih =>
    obtain ⟨k0, v0⟩ := p
    have hok' : ∀ p ∈ rest, startsWithStr p.1 pre = true → p.2 ≠ Val.bad :=
      fun p hp => hok p (List.mem_cons_of_mem _ hp)
    have ihr := ih hok'
    by_cases hsw : startsWithStr k0 pre = true
    · cases v0 with
      | ok e =>
        simp [collectEntries, prefixCount, List.filter_cons, hsw, ihr,
          List.filterMap_cons]
        simp [collectEntries, prefixCount] at ihr
        omega
      | bad =>
        exact absurd rfl (hok (k0, Val.bad) (List.mem_cons_self _ _) hsw)
    · rw [Bool.not_eq_true] at hsw
      simp [collectEntries, prefixCount, List.filter_cons, hsw,
        List.filterMap_cons]
      simpa [collectEntries, prefixCount] using ihr

/-- Membership in the eviction scan's entry list. -/
theorem mem_collectEntries_iff (pre : String) (st : Storage) (k : String)
    (t : Int) :
    (k, t) ∈ collectEntries pre st
      ↔ startsWithStr k pre = true
        ∧ ∃ e : CacheEntry, (k, Val.ok e) ∈ st ∧ e.timestamp = t := by
  unfold collectEntries
  rw [List.mem_filterMap]
  constructor
  · rintro ⟨⟨k0, v0⟩, hmem, hf⟩
    by_cases hsw : startsWithStr k0 pre = true
    · rw [if_pos hsw] at hf
      cases v0 with
      | ok e =>
        simp only [Option.some.injEq, Prod.mk.injEq] at hf
        obtain ⟨hk, ht⟩ := hf
        subst hk
        exact ⟨hsw, e, hmem, ht⟩
      | bad => cases hf
    · rw [if_neg hsw] at hf
      cases hf
  · rintro ⟨hsw, e, hmem, ht⟩
    exact ⟨(k, Val.ok e), hmem, by simp [hsw, ht]⟩

/-- The keys of the eviction scan form a sublist of the storage keys. -/
theorem collectEntries_keys_sublist (pre : String) (st : Storage) :
    ((collectEntries pre st).map Prod.fst).Sublist (st.map Prod.fst) := by
  induction st with
  | nil => simp [collectEntries]
  | cons p rest ih =>
    obtain ⟨k0, v0⟩ := p
    by_cases hsw : startsWithStr k0 pre = true
    · cases v0 with
      | ok e =>
        simpa [collectEntries, List.filterMap_cons, hsw] using ih.cons₂ k0
      | bad =>
        simpa [collectEntries, List.filterMap_cons, hsw] using ih.cons k0
    · rw [Bool.not_eq_true] at hsw
      simpa [collectEntries, List.filterMap_cons, hsw] using ih.cons k0

/-- In a list with pairwise distinct keys, the key determines the
associated value. -/
theorem eq_of_mem_keys_nodup {l : List (String × Int)}
    (hnd : (l.map Prod.fst).Nodup) {k : String} {a b : Int}
    (ha : (k, a) ∈ l) (hb : (k, b) ∈ l) : a = b := by
  induction l with
  | nil => cases ha
  | cons p rest ih =>
    obtain ⟨k0, c⟩ := p
    rw [List.map_cons, List.nodup_cons] at hnd
    rcases List.mem_cons.mp ha with ha | ha <;>
      rcases List.mem_cons.mp hb with hb | hb
    · injection ha with ha1 ha2
      injection hb with hb1 hb2
      exact ha2.trans hb2.symm
    · injection ha with ha1 _
      have hmem : k0 ∈ List.map Prod.fst rest := by
        rw [← ha1]
        exact List.mem_map_of_mem Prod.fst hb
      exact absurd hmem hnd.1
    · injection hb with hb1 _
      have hmem : k0 ∈ List.map Prod.fst rest := by
        rw [← hb1]
        exact List.mem_map_of_mem Prod.fst ha
      exact absurd hmem hnd.1
    · exact ih hnd.2 ha hb

/-- Writing one key adds at most one prefixed entry. -/
theorem prefixCount_setItem_le (pre : String) (st : Storage) (k : String)
    (v : Val) :
    prefixCount pre (setItem st k v) ≤ prefixCount pre st + 1 := by
  induction st with
  | nil =>
    by_cases hsw : startsWithStr k pre = true <;>
      simp [setItem, prefixCount, List.filter_cons, hsw]
  | cons p rest ih =>
    obtain ⟨k0, v0⟩ := p
    simp only [prefixCount] at ih
    by_cases h0 : k0 = k
    · subst h0
      by_cases hsw : startsWithStr k0 pre = true <;>
        simp [setItem, prefixCount, List.filter_cons, hsw]
    · by_cases hsw : startsWithStr k0 pre = true <;>
        simp [setItem, h0, prefixCount, List.filter_cons, hsw] <;>
        omega

/-! ## Claim C2 -/

/-- C2 (counterexample): with a malformed entry stored under the
prefix, `JSON.parse` throws inside `evictOldEntries`, its `catch`
swallows the exception, nothing is evicted, and the subsequent write
drives the stored entry count to three — above `maxEntries = 2`. -/
theorem C2_counterexample :
    keysNodup stWithBad
    ∧ cfgCapTwo.maxEntries = 2
    ∧ prefixCount cfgCapTwo.keyPrefix
        (setCacheEntry cfgCapTwo "c" [] "" 7 stWithBad) = 3 :=
  ⟨by decide, by decide, by decide⟩

/-- C2 (amended): provided every stored value under the cache's prefix
parses as a `CacheEntry` (and `maxEntries ≥ 1`), a put keeps the
prefixed entry count at or below `maxEntries`, and whenever eviction
drops one entry while keeping another, the dropped entry's `storedAt`
timestamp is no larger — the smallest-`storedAt` entries go first. -/
theorem C2_theorem (cfg : CacheConfig) (key : String)
    (data : List ComboboxOption) (etag : String) (now : Int) (st : Storage)
    (hnd : keysNodup st)
    (hok : ∀ p ∈ st, startsWithStr p.1 cfg.keyPrefix = true → p.2 ≠ Val.bad)
    (hmax : 1 ≤ cfg.maxEntries) :
    prefixCount cfg.keyPrefix (setCacheEntry cfg key data etag now st)
      ≤ cfg.maxEntries
    ∧ (∀ k1 e1 k2 e2, (k1, Val.ok e1) ∈ st → (k2, Val.ok e2) ∈ st →
        startsWithStr k1 cfg.keyPrefix = true →
        startsWithStr k2 cfg.keyPrefix = true →
        getItem (evictOldEntries cfg.maxEntries cfg.keyPrefix st) k1 = none →
        getItem (evictOldEntries cfg.maxEntries cfg.keyPrefix st) k2 ≠ none →
        e1.timestamp ≤ e2.timestamp) := by
  have hany : (st.any fun p => startsWithStr p.1 cfg.keyPrefix && p.2 == Val.bad)
      = false := by
    rw [List.any_eq_false]
    intro p hp
    by_cases hsw : startsWithStr p.1 cfg.keyPrefix = true
    · have hne := hok p hp hsw
      simp [hsw, hne]
    · rw [Bool.not_eq_true] at hsw
      simp [hsw]
  obtain ⟨E, hE⟩ : ∃ l, l = collectEntries cfg.keyPrefix st := ⟨_, rfl⟩
  obtain ⟨S, hS⟩ : ∃ l, l = sortByTimestamp E := ⟨_, rfl⟩
  have hEcount : E.length = prefixCount cfg.keyPrefix st := by
    rw [hE]
    exact length_collectEntries _ st hok
  have hS_perm : List.Perm S E := by
    rw [hS]
    exact List.perm_insertionSort _ _
  have hkeysE : (E.map Prod.fst).Nodup := by
    rw [hE]
    exact (collectEntries_keys_sublist cfg.keyPrefix st).nodup hnd
  have hkeysS : (S.map Prod.fst).Nodup :=
    ((hS_perm.map Prod.fst).nodup_iff).mpr hkeysE
  by_cases hlen : cfg.maxEntries ≤ E.length
  · -- eviction branch
    obtain ⟨n, hn⟩ : ∃ m, m = E.length - cfg.maxEntries + 1 := ⟨_, rfl⟩
    have hev : evictOldEntries cfg.maxEntries cfg.keyPrefix st
        = (S.take n).foldl (fun acc kt => removeItem acc kt.1) st := by
      rw [hS, hn, hE]
      simp only [evictOldEntries, hany, Bool.false_eq_true, if_false]
      rw [if_pos (hE ▸ hlen)]
    have hSlen : S.length = E.length := hS_perm.length_eq
    have hTlen : (S.take n).length = n := by
      rw [List.length_take]
      omega
    have hTmem : ∀ kt ∈ S.take n, startsWithStr kt.1 cfg.keyPrefix = true
        ∧ getItem st kt.1 ≠ none := by
      intro kt hkt
      have hktS : kt ∈ S := List.mem_of_mem_take hkt
      have hktE : kt ∈ E := hS_perm.subset hktS
      have := (mem_collectEntries_iff cfg.keyPrefix st kt.1 kt.2).mp (by
        rw [← hE]
        simpa using hktE)
      obtain ⟨hsw, e, hmem, _⟩ := this
      exact ⟨hsw, getItem_ne_none_of_mem hmem⟩
    have hkeysT : ((S.take n).map Prod.fst).Nodup := by
      rw [List.map_take]
      exact (List.take_sublist n _).nodup hkeysS
    constructor
    · have hfold := prefixCount_foldRemove cfg.keyPrefix (S.take n) st hTmem
        hkeysT
      rw [hTlen] at hfold
      have hset := prefixCount_setItem_le cfg.keyPrefix
        (evictOldEntries cfg.maxEntries cfg.keyPrefix st)
        (cfg.keyPrefix ++ key) (Val.ok ⟨data, etag, now, key⟩)
      simp only [setCacheEntry]
      rw [hev] at hset ⊢
      omega
    · intro k1 e1 k2 e2 hm1 hm2 hsw1 hsw2 hnone hsome
      rw [hev, getItem_foldRemove] at hnone hsome
      have hne1 := getItem_ne_none_of_mem hm1
      have hany1 : ((S.take n).any fun kt => kt.1 == k1) = true := by
        by_contra hcon
        rw [Bool.not_eq_true] at hcon
        rw [hcon] at hnone
        simp only [Bool.false_eq_true, if_false] at hnone
        exact hne1 hnone
      have hany2 : ((S.take n).any fun kt => kt.1 == k2) = false := by
        by_contra hcon
        rw [Bool.not_eq_false] at hcon
        rw [hcon] at hsome
        simp at hsome
      obtain ⟨kt, hktT, hkteq⟩ := List.any_eq_true.mp hany1
      have hkt1 : kt.1 = k1 := by simpa using hkteq
      have hktE : kt ∈ E := hS_perm.subset (List.mem_of_mem_take hktT)
      have ht1 : kt.2 = e1.timestamp := by
        have hmemE1 : (k1, e1.timestamp) ∈ E := by
          rw [hE]
          exact (mem_collectEntries_iff cfg.keyPrefix st k1 e1.timestamp).mpr
            ⟨hsw1, e1, hm1, rfl⟩
        have hmemE1' : (k1, kt.2) ∈ E := by
          rw [← hkt1]
          simpa using hktE
        exact eq_of_mem_keys_nodup hkeysE hmemE1' hmemE1
      have hmemE2 : (k2, e2.timestamp) ∈ E := by
        rw [hE]
        exact (mem_collectEntries_iff cfg.keyPrefix st k2 e2.timestamp).mpr
          ⟨hsw2, e2, hm2, rfl⟩
      have hmemS2 : (k2, e2.timestamp) ∈ S := hS_perm.mem_iff.mpr hmemE2
      have hdrop2 : (k2, e2.timestamp) ∈ S.drop n := by
        rcases List.mem_append.mp (by
            rw [List.take_append_drop n S]
            exact hmemS2) with h | h
        · exfalso
          have := List.any_eq_false.mp hany2 _ h
          simp at this
        · exact h
      have hsort : List.Pairwise (fun x y : String × Int => x.2 ≤ y.2) S := by
        rw [hS]
        unfold sortByTimestamp
        exact List.sorted_insertionSort _ _
      rw [← List.take_append_drop n S] at hsort
      have hrel := (List.pairwise_append.mp hsort).2.2
      have := hrel kt hktT (k2, e2.timestamp) hdrop2
      simpa [ht1] using this
  · -- no eviction
    push_neg at hlen
    have hev : evictOldEntries cfg.maxEntries cfg.keyPrefix st = st := by
      simp only [evictOldEntries, hany, Bool.false_eq_true, if_false]
      rw [if_neg (by rw [← hE]; omega)]
    constructor
    · have hset := prefixCount_setItem_le cfg.keyPrefix
        (evictOldEntries cfg.maxEntries cfg.keyPrefix st)
        (cfg.keyPrefix ++ key) (Val.ok ⟨data, etag, now, key⟩)
      simp only [setCacheEntry]
      rw [hev] at hset ⊢
      omega
    · intro k1 e1 k2 e2 hm1 _ _ _ hnone _
      rw [hev] at hnone
      exact absurd hnone (getItem_ne_none_of_mem hm1)

/-- C2 (witness): the amended theorem at a two-entry well-formed
storage of capacity two. -/
theorem C2_witness :
    keysNodup [("pa", Val.ok ⟨[], "t1", 0, "a"⟩),
        ("pb", Val.ok ⟨[], "t2", 5, "b"⟩)]
    ∧ 1 ≤ cfgCapTwo.maxEntries
    ∧ prefixCount cfgCapTwo.keyPrefix
        (setCacheEntry cfgCapTwo "c" [] "" 7
          [("pa", Val.ok ⟨[], "t1", 0, "a"⟩),
            ("pb", Val.ok ⟨[], "t2", 5, "b"⟩)])
      ≤ cfgCapTwo.maxEntries :=
  ⟨by decide, by decide,
    (C2_theorem cfgCapTwo "c" [] "" 7
      [("pa", Val.ok ⟨[], "t1", 0, "a"⟩), ("pb", Val.ok ⟨[], "t2", 5, "b"⟩)]
      (by decide) (by decide) (by decide)).1⟩

/-! ## Claim C1 -/

/-- C1 (counterexample): the claim as stated is false — settling an
aborted (superseded) attempt does mutate the loading state, because the
`finally \x7b setIsLoading(false) \x7d` of `fetchData` runs even on the
`AbortError` path.  In the `raceState` trace, attempt 1 is pending with
`isLoading = true`, and the settlement of the aborted attempt 0 flips it
to `false`. -/
theorem C1_counterexample : ¬ SupersededNeverMutates := by
  intro h
  have h3 :=
    (h cfgNoCache raceState 0 (FetchOutcome.failure "x") (by decide)).2.2
  exact absurd h3 (by decide)

/-- C1 (amended): settling a fetch attempt whose request was aborted by
a later input change never mutates the field's `data` or `error`; only
the most recent non-cancelled attempt's response is ever applied to
them.  (Its settlement does, however, reset `isLoading` to `false`.) -/
theorem C1_theorem (cfg : SchedConfig) (s : SchedState) (id : Nat)
    (out : FetchOutcome) (h : id ∈ s.abortedIds) :
    (schedStep cfg (SchedEvent.settle id out) s).data = s.data
    ∧ (schedStep cfg (SchedEvent.settle id out) s).error = s.error := by
  by_cases ho : s.outstanding.any (fun r => r.1 == id)
  · simp [schedStep, settleStep, ho, h]
  · simp [schedStep, settleStep, ho]

/-- C1 (witness): the amended theorem applied to the concrete race
trace. -/
theorem C1_witness :
    0 ∈ raceState.abortedIds
    ∧ (schedStep cfgNoCache (SchedEvent.settle 0 (FetchOutcome.failure "x"))
          raceState).data = raceState.data
    ∧ (schedStep cfgNoCache (SchedEvent.settle 0 (FetchOutcome.failure "x"))
          raceState).error = raceState.error := by
  refine ⟨by decide, ?_⟩
  exact C1_theorem cfgNoCache raceState 0 (FetchOutcome.failure "x") (by decide)

/-! ## Claim C7 -/

/-- C7: when the scheduler runs (`enabled`) on an input shorter than
`minChars`, the option set is cleared and loading stops immediately: no
debounce timer is armed and no network request is issued. -/
theorem C7_theorem (cfg : SchedConfig) (s : SchedState) (q : Str)
    (hen : cfg.enabled = true) (hlen : q.length < cfg.minChars) :
    (schedStep cfg (SchedEvent.input q) s).data = []
    ∧ (schedStep cfg (SchedEvent.input q) s).isLoading = false
    ∧ (schedStep cfg (SchedEvent.input q) s).timer = none
    ∧ (schedStep cfg (SchedEvent.input q) s).outstanding = s.outstanding := by
  simp [schedStep, refetchStep, hen, hlen]

/-- C7 (witness): a one-character input under a two-character minimum,
fired against the mid-race state. -/
theorem C7_witness :
    cfgNoCache.enabled = true
    ∧ ([' '] : Str).length < cfgNoCache.minChars
    ∧ (schedStep cfgNoCache (SchedEvent.input [' ']) raceState).data = []
    ∧ (schedStep cfgNoCache (SchedEvent.input [' ']) raceState).isLoading = false := by
  refine ⟨by decide, by decide, ?_⟩
  have h := C7_theorem cfgNoCache raceState [' '] (by decide) (by decide)
  exact ⟨h.1, h.2.1⟩

/-! ## Claim C8 -/

/-- C8 (counterexample): a malformed stored entry is a miss, but —
contrary to the claim — it is not removed: the storage returned by
`getCacheEntry` still holds the bad entry (the `catch` only logs and
returns `null`; only the expired branch removes). -/
theorem C8_counterexample :
    getCacheEntry cfgPlain "k" 0 stOneBad = (none, stOneBad)
    ∧ getItem stOneBad "pk" = some Val.bad := by decide

/-- C8 (amended): for every key whose stored value cannot be parsed as a
`CacheEntry`, `getCacheEntry` returns a miss and leaves the storage —
including the bad entry — unchanged. -/
theorem C8_theorem (cfg : CacheConfig) (key : String) (now : Int)
    (st : Storage) (h : getItem st (cfg.keyPrefix ++ key) = some Val.bad) :
    getCacheEntry cfg key now st = (none, st) := by
  simp [getCacheEntry, h]

/-- C8 (witness): the amended theorem at the concrete one-entry
storage. -/
theorem C8_witness :
    getItem stOneBad (cfgPlain.keyPrefix ++ "k") = some Val.bad
    ∧ getCacheEntry cfgPlain "k" 0 stOneBad = (none, stOneBad) :=
  ⟨by decide, C8_theorem cfgPlain "k" 0 stOneBad (by decide)⟩

/-! ## Claim C3 -/

/-- C3 (counterexample): with TTL zero, a put immediately followed by a
get at the same timestamp is a hit, not the miss the claim predicts
(`now - storedAt > ttl` is `0 > 0`, false). -/
theorem C3_counterexample :
    cfgZeroTtl.ttl = 0
    ∧ (getCacheEntry cfgZeroTtl "k" 5
          (setCacheEntry cfgZeroTtl "k" [] "e" 5 [])).1
        = some ⟨[], "e", 5, "k"⟩ := by decide

/-- C3 (amended): a put immediately followed (same timestamp) by a get
with the same key and config returns exactly the stored data and
validator whenever the TTL is non-negative — zero included — and a miss
exactly when the TTL is negative. -/
theorem C3_theorem (cfg : CacheConfig) (key : String)
    (data : List ComboboxOption) (etag : String) (now : Int) (st : Storage) :
    (getCacheEntry cfg key now (setCacheEntry cfg key data etag now st)).1
      = if cfg.ttl < 0 then none else some ⟨data, etag, now, key⟩ := by
  have hget : getItem (setCacheEntry cfg key data etag now st)
      (cfg.keyPrefix ++ key) = some (Val.ok ⟨data, etag, now, key⟩) := by
    simp only [setCacheEntry]
    exact getItem_setItem_self _ _ _
  simp only [getCacheEntry, hget, sub_self, gt_iff_lt]
  split <;> rfl

/-! ## Claim C4 -/

/-- C4 (code evaluated at the failing input): the two filter maps hold
exactly the same bindings (they are permutations of one another), yet
`generateCacheKey` produces different keys, because `JSON.stringify`
serializes object properties in enumeration order. -/
theorem C4_theorem :
    filtersAB.Perm filtersBA
    ∧ generateCacheKey "e" (some filtersAB)
        ≠ generateCacheKey "e" (some filtersBA) := by
  constructor
  · exact List.Perm.swap _ _ _
  · decide

/-! ## Blank-query lemmas -/

/-- A query of whitespace characters trims to nothing. -/
theorem trimStr_eq_nil (q : Str) (h : ∀ c ∈ q, c.isWhitespace) :
    trimStr q = [] := by
  unfold trimStr
  have h1 : q.dropWhile Char.isWhitespace = [] := List.dropWhile_eq_nil_iff.mpr h
  simp [h1]

/-- A whitespace-only query (the empty one included) passes the blank
guard of the search functions. -/
theorem isBlankQuery_of_ws (q : Str) (h : ∀ c ∈ q, c.isWhitespace) :
    isBlankQuery q = true := by
  simp [isBlankQuery, trimStr_eq_nil q h]

/-! ## Claim C10 -/

/-- C10: on a whitespace-only query (the empty query included), each of
`fuzzySearch`, `rankSearchResults`, `multiTokenSearch` and `smartSearch`
returns its input option list unchanged, whatever the fuzzy library
does. -/
theorem C10_theorem (fuse : FuseRank) (q : Str) (opts : List ComboboxOption)
    (h : ∀ c ∈ q, c.isWhitespace) :
    fuzzySearch fuse q opts = opts
    ∧ rankSearchResults fuse q opts = opts
    ∧ multiTokenSearch q opts = opts
    ∧ smartSearch fuse q opts = opts := by
  have hb := isBlankQuery_of_ws q h
  exact ⟨by simp [fuzzySearch, hb], by simp [rankSearchResults, hb],
    by simp [multiTokenSearch, hb], by simp [smartSearch, hb]⟩

/-- C10 (witness): the single-space query on a two-option list. -/
theorem C10_witness :
    spaceQuery.all Char.isWhitespace = true
    ∧ (fuzzySearch fuseKeep spaceQuery [optSpace, optDoubleSpace]
          = [optSpace, optDoubleSpace]
      ∧ rankSearchResults fuseKeep spaceQuery [optSpace, optDoubleSpace]
          = [optSpace, optDoubleSpace]
      ∧ multiTokenSearch spaceQuery [optSpace, optDoubleSpace]
          = [optSpace, optDoubleSpace]
      ∧ smartSearch fuseKeep spaceQuery [optSpace, optDoubleSpace]
          = [optSpace, optDoubleSpace]) :=
  ⟨by decide,
    C10_theorem fuseKeep spaceQuery [optSpace, optDoubleSpace] (by decide)⟩

/-! ## Bucket lemmas for the ranking engine -/

/-- Unfolding of the second bucket's membership test. -/
theorem prefixOnly_spec {q : Str} {o : ComboboxOption} :
    prefixOnlyMatch q o = true
      ↔ isExactMatch q o = false ∧ isPrefixMatch q o = true := by
  simp [prefixOnlyMatch]

/-- Unfolding of the third bucket's membership test. -/
theorem fuzzyOnly_spec {q : Str} {o : ComboboxOption} :
    fuzzyOnlyMatch q o = true
      ↔ isExactMatch q o = false ∧ isPrefixMatch q o = false := by
  simp [fuzzyOnlyMatch]

/-- The `forEach` partition of `rankSearchResults` equals three filters
of the input, each preserving input order. -/
theorem partitionBuckets_eq (q : Str) (l : List ComboboxOption) :
    partitionBuckets q l
      = (l.filter (isExactMatch q), l.filter (prefixOnlyMatch q),
          l.filter (fuzzyOnlyMatch q)) := by
  induction l with
  | nil => rfl
  | cons o rest ih =>
    by_cases h1 : isExactMatch q o = true
    · simp [partitionBuckets, ih, List.filter_cons, h1, prefixOnlyMatch,
        fuzzyOnlyMatch]
    · rw [Bool.not_eq_true] at h1
      by_cases h2 : isPrefixMatch q o = true
      · simp [partitionBuckets, ih, List.filter_cons, h1, h2, prefixOnlyMatch,
          fuzzyOnlyMatch]
      · rw [Bool.not_eq_true] at h2
        simp [partitionBuckets, ih, List.filter_cons, h1, h2, prefixOnlyMatch,
          fuzzyOnlyMatch]

/-- `rankSearchResults` on a non-blank query, written out:
`exact ++ prefix ++ fuzzyRanked`. -/
theorem rankSearchResults_eq (fuse : FuseRank) (q : Str)
    (opts : List ComboboxOption) (hq : isBlankQuery q = false) :
    rankSearchResults fuse q opts
      = opts.filter (isExactMatch q) ++ opts.filter (prefixOnlyMatch q)
          ++ fuse q (opts.filter (fuzzyOnlyMatch q)) := by
  simp [rankSearchResults, hq, partitionBuckets_eq, fuzzySearch]

/-- Indexing into the left part of an append. -/
theorem mem_left_of_getElem_lt (a b : List ComboboxOption) (i : Nat)
    (h : i < (a ++ b).length) (hi : i < a.length) : (a ++ b)[i] ∈ a := by
  rw [List.getElem_append_left hi]
  exact List.getElem_mem hi

/-- Indexing into the right part of an append. -/
theorem mem_right_of_getElem_ge (a b : List ComboboxOption) (i : Nat)
    (h : i < (a ++ b).length) (hi : a.length ≤ i) : (a ++ b)[i] ∈ b := by
  rw [List.getElem_append_right hi]
  exact List.getElem_mem _

/-- Any list that decomposes into an all-exact block, an
all-prefix-only block and an all-fuzzy-only block, in that order,
satisfies claim C5's ordering property. -/
theorem ranksProperly_of_buckets (q : Str) (e p f : List ComboboxOption)
    (he : ∀ x ∈ e, isExactMatch q x = true)
    (hp : ∀ x ∈ p, prefixOnlyMatch q x = true)
    (hf : ∀ x ∈ f, fuzzyOnlyMatch q x = true) :
    RanksProperly q (e ++ p ++ f) := by
  constructor
  · intro i j hi hj
    rw [List.get_eq_getElem] at hi hj
    have hie : (i : Nat) < e.length := by
      by_contra hcon
      push_neg at hcon
      by_cases hep : (i : Nat) < (e ++ p).length
      · have hmem : ((e ++ p) ++ f)[(i : Nat)] ∈ p := by
          rw [List.getElem_append_left hep]
          exact mem_right_of_getElem_ge e p _ hep hcon
        have := (prefixOnly_spec.mp (hp _ hmem)).1
        rw [hi] at this
        exact Bool.noConfusion this
      · push_neg at hep
        have hmem : ((e ++ p) ++ f)[(i : Nat)] ∈ f :=
          mem_right_of_getElem_ge (e ++ p) f _ i.isLt hep
        have := (fuzzyOnly_spec.mp (hf _ hmem)).1
        rw [hi] at this
        exact Bool.noConfusion this
    have hje : e.length ≤ (j : Nat) := by
      by_contra hcon
      push_neg at hcon
      have hjep : (j : Nat) < (e ++ p).length := by
        simp only [List.length_append]
        omega
      have hmem : ((e ++ p) ++ f)[(j : Nat)] ∈ e := by
        rw [List.getElem_append_left hjep]
        exact mem_left_of_getElem_lt e p _ hjep hcon
      have := he _ hmem
      have h2 := (prefixOnly_spec.mp hj).1
      rw [this] at h2
      exact Bool.noConfusion h2
    omega
  · intro i j hi hj
    rw [List.get_eq_getElem] at hi hj
    have hie : (i : Nat) < (e ++ p).length := by
      by_contra hcon
      push_neg at hcon
      have hmem : ((e ++ p) ++ f)[(i : Nat)] ∈ f :=
        mem_right_of_getElem_ge (e ++ p) f _ i.isLt hcon
      have := (fuzzyOnly_spec.mp (hf _ hmem)).2
      have h2 := (prefixOnly_spec.mp hi).2
      rw [h2] at this
      exact Bool.noConfusion this
    have hje : (e ++ p).length ≤ (j : Nat) := by
      by_contra hcon
      push_neg at hcon
      have hmem : ((e ++ p) ++ f)[(j : Nat)] ∈ e ++ p := by
        rw [List.getElem_append_left hcon]
        exact List.getElem_mem hcon
      rcases List.mem_append.mp hmem with hm | hm
      · have := he _ hm
        have h2 := (fuzzyOnly_spec.mp hj).1
        rw [this] at h2
        exact Bool.noConfusion h2
      · have := (prefixOnly_spec.mp (hp _ hm)).2
        have h2 := (fuzzyOnly_spec.mp hj).2
        rw [this] at h2
        exact Bool.noConfusion h2
    omega

/-! ## Claim C5 -/

/-- C5 (counterexample): the claim quantifies over every non-empty
query, but a whitespace-only (yet non-empty) query short-circuits
`smartSearch` to the identity, so an exact match can stay behind a
prefix-only match. -/
theorem C5_counterexample :
    spaceQuery ≠ []
    ∧ ¬ RanksProperly spaceQuery
        (smartSearch fuseKeep spaceQuery [optDoubleSpace, optSpace]) := by
  constructor
  · decide
  · decide

/-- C5 (amended): for every query with non-whitespace content and every
option list, `smartSearch` places every exact match strictly before
every prefix-only match and every prefix-only match strictly before
every fuzzy-only option, for any fuzzy ranker that draws its output from
its input. -/
theorem C5_theorem (fuse : FuseRank)
    (hfuse : ∀ q l x, x ∈ fuse q l → x ∈ l)
    (q : Str) (opts : List ComboboxOption) (hq : isBlankQuery q = false) :
    RanksProperly q (smartSearch fuse q opts) := by
  have hsm : smartSearch fuse q opts
      = rankSearchResults fuse q (multiTokenSearch q opts) := by
    simp [smartSearch, hq]
  rw [hsm, rankSearchResults_eq fuse q _ hq]
  apply ranksProperly_of_buckets
  · intro x hx
    exact (List.mem_filter.mp hx).2
  · intro x hx
    exact (List.mem_filter.mp hx).2
  · intro x hx
    exact (List.mem_filter.mp (hfuse _ _ _ hx)).2

/-- C5 (witness): the amended theorem at the query `"ni"` and a
three-option list. -/
theorem C5_witness :
    isBlankQuery ['n', 'i'] = false
    ∧ RanksProperly ['n', 'i']
        (smartSearch fuseKeep ['n', 'i']
          [⟨['1'], ['n', 'o'], none⟩, ⟨['2'], ['n', 'i'], none⟩,
            ⟨['3'], ['n', 'i', 'x'], none⟩]) :=
  ⟨by decide,
    C5_theorem fuseKeep (fun _ _ _ hx => hx) ['n', 'i'] _ (by decide)⟩

/-! ## Token lemmas for `multiTokenSearch` -/

/-- `toLowerCase` distributes over concatenation. -/
theorem toLowerStr_append (a b : Str) :
    toLowerStr (a ++ b) = toLowerStr a ++ toLowerStr b :=
  List.map_append _ _ _

/-- Every token produced by the whitespace splitter is a contiguous
substring of the split input (`acc ++ l` is the input still owed when
the accumulator holds `acc`). -/
theorem mem_splitWsAux_infix (t : Str) :
    ∀ (l acc : Str), t ∈ splitWsAux l acc → t <:+: acc ++ l := by
  intro l
  induction l with
  | nil =>
    intro acc h
    unfold splitWsAux at h
    by_cases ha : acc.isEmpty
    · simp [ha] at h
    · simp [ha] at h
      subst h
      simp
  | cons c rest ih =>
    intro acc h
    unfold splitWsAux at h
    by_cases hws : c.isWhitespace
    · rw [if_pos hws] at h
      have hrest : t ∈ splitWsAux rest [] → t <:+: acc ++ c :: rest := by
        intro hm
        have h1 : t <:+: rest := by simpa using ih [] hm
        exact h1.trans
          (((List.suffix_cons c rest).trans
            (List.suffix_append acc (c :: rest))).isInfix)
      by_cases ha : acc.isEmpty
      · rw [if_pos ha] at h
        exact hrest h
      · rw [if_neg ha] at h
        rcases List.mem_cons.mp h with h | h
        · subst h
          exact (List.prefix_append t (c :: rest)).isInfix
        · exact hrest h
    · rw [if_neg hws] at h
      have h1 := ih (acc ++ [c]) h
      rw [List.append_assoc] at h1
      simpa using h1

/-- Every token of the lowercased query is a substring of the lowercased
query. -/
theorem mem_tokensOf_infix (q t : Str) (h : t ∈ tokensOf q) :
    t <:+: toLowerStr q := by
  have h' : t ∈ splitWsAux (toLowerStr q) [] := by
    simpa [tokensOf, splitWs] using h
  simpa using mem_splitWsAux_infix t (toLowerStr q) [] h'

/-- A prefix match passes the multi-token filter: each token is a
substring of the lowercased query, hence of the matched field, hence of
the option's search text. -/
theorem matchesAllTokens_of_isPrefixMatch (q : Str) (o : ComboboxOption)
    (h : isPrefixMatch q o = true) : matchesAllTokens q o = true := by
  unfold matchesAllTokens
  rw [List.all_eq_true]
  intro t ht
  have hinf : t <:+: toLowerStr q := mem_tokensOf_infix q t ht
  unfold isPrefixMatch at h
  have hlab : toLowerStr o.label <+: searchTextOf o := by
    unfold searchTextOf
    rw [toLowerStr_append, toLowerStr_append, List.append_assoc]
    exact List.prefix_append _ _
  have hval : toLowerStr o.value <:+ searchTextOf o := by
    unfold searchTextOf
    rw [toLowerStr_append]
    exact List.suffix_append _ _
  simp only [includesStr, decide_eq_true_eq]
  rcases (Bool.or_eq_true _ _).mp h with hl | hv
  · have hp : toLowerStr q <+: toLowerStr o.label := by simpa using hl
    exact (hinf.trans hp.isInfix).trans hlab.isInfix
  · have hp : toLowerStr q <+: toLowerStr o.value := by simpa using hv
    exact (hinf.trans hp.isInfix).trans hval.isInfix

/-- An exact match is in particular a prefix match. -/
theorem isPrefixMatch_of_isExactMatch (q : Str) (o : ComboboxOption)
    (h : isExactMatch q o = true) : isPrefixMatch q o = true := by
  unfold isExactMatch at h
  unfold isPrefixMatch
  rcases (Bool.or_eq_true _ _).mp h with hl | hv
  · have heq : toLowerStr o.label = toLowerStr q := by simpa using hl
    rw [Bool.or_eq_true]
    left
    rw [heq]
    simp
  · have heq : toLowerStr o.value = toLowerStr q := by simpa using hv
    rw [Bool.or_eq_true]
    right
    rw [heq]
    simp

/-- The multi-token filter keeps every exact and every prefix match, so
filtering for those buckets commutes with it. -/
theorem filter_matchesAllTokens_of_imp (q : Str) (opts : List ComboboxOption)
    (P : ComboboxOption → Bool)
    (hP : ∀ x, P x = true → matchesAllTokens q x = true) :
    (opts.filter (matchesAllTokens q)).filter P = opts.filter P := by
  rw [List.filter_filter]
  apply List.filter_congr
  intro x _
  by_cases hx : P x = true
  · rw [hx, hP x hx]
    rfl
  · rw [Bool.not_eq_true] at hx
    rw [hx]
    simp

/-! ## Claim C9 -/

/-- C9: on a non-blank query, `rankSearchResults` and `smartSearch`
output the exact-match options and then the prefix-match options of
their input, each bucket a filter of the input (so in its original
relative order), followed by fuzzy output containing only options that
are in neither of the first two buckets; only those can be dropped. -/
theorem C9_theorem (fuse : FuseRank) (hfuse : ∀ q l x, x ∈ fuse q l → x ∈ l)
    (q : Str) (opts : List ComboboxOption) (hq : isBlankQuery q = false) :
    (∃ fz, rankSearchResults fuse q opts
        = opts.filter (isExactMatch q) ++ opts.filter (prefixOnlyMatch q) ++ fz
      ∧ ∀ x ∈ fz, fuzzyOnlyMatch q x = true ∧ x ∈ opts)
    ∧ (∃ fz, smartSearch fuse q opts
        = opts.filter (isExactMatch q) ++ opts.filter (prefixOnlyMatch q) ++ fz
      ∧ ∀ x ∈ fz, fuzzyOnlyMatch q x = true ∧ x ∈ opts) := by
  constructor
  · refine ⟨fuse q (opts.filter (fuzzyOnlyMatch q)),
      rankSearchResults_eq fuse q opts hq, ?_⟩
    intro x hx
    have hm := List.mem_filter.mp (hfuse _ _ _ hx)
    exact ⟨hm.2, hm.1⟩
  · by_cases htok : (tokensOf q).isEmpty = true
    · have hsm : smartSearch fuse q opts
          = rankSearchResults fuse q opts := by
        simp [smartSearch, multiTokenSearch, hq, htok]
      refine ⟨fuse q (opts.filter (fuzzyOnlyMatch q)), ?_, ?_⟩
      · rw [hsm]
        exact rankSearchResults_eq fuse q opts hq
      · intro x hx
        have hm := List.mem_filter.mp (hfuse _ _ _ hx)
        exact ⟨hm.2, hm.1⟩
    · rw [Bool.not_eq_true] at htok
      have hsm : smartSearch fuse q opts
          = rankSearchResults fuse q (opts.filter (matchesAllTokens q)) := by
        simp [smartSearch, multiTokenSearch, hq, htok]
      have hex := filter_matchesAllTokens_of_imp q opts (isExactMatch q)
        (fun x hx =>
          matchesAllTokens_of_isPrefixMatch q x (isPrefixMatch_of_isExactMatch q x hx))
      have hpf := filter_matchesAllTokens_of_imp q opts (prefixOnlyMatch q)
        (fun x hx =>
          matchesAllTokens_of_isPrefixMatch q x (prefixOnly_spec.mp hx).2)
      refine ⟨fuse q ((opts.filter (matchesAllTokens q)).filter (fuzzyOnlyMatch q)),
        ?_, ?_⟩
      · rw [hsm, rankSearchResults_eq fuse q _ hq, hex, hpf]
      · intro x hx
        have hm := List.mem_filter.mp (hfuse _ _ _ hx)
        exact ⟨hm.2, (List.mem_filter.mp hm.1).1⟩

/-- C9 (witness): the theorem at the query `"ni"` and a three-option
list. -/
theorem C9_witness :
    isBlankQuery ['n', 'i'] = false
    ∧ ((∃ fz, rankSearchResults fuseKeep ['n', 'i']
          [⟨['1'], ['n', 'o'], none⟩, ⟨['2'], ['n', 'i'], none⟩,
            ⟨['3'], ['n', 'i', 'x'], none⟩]
        = ([⟨['1'], ['n', 'o'], none⟩, ⟨['2'], ['n', 'i'], none⟩,
            ⟨['3'], ['n', 'i', 'x'], none⟩] : List ComboboxOption).filter
              (isExactMatch ['n', 'i'])
          ++ ([⟨['1'], ['n', 'o'], none⟩, ⟨['2'], ['n', 'i'], none⟩,
              ⟨['3'], ['n', 'i', 'x'], none⟩] : List ComboboxOption).filter
                (prefixOnlyMatch ['n', 'i']) ++ fz
        ∧ ∀ x ∈ fz, fuzzyOnlyMatch ['n', 'i'] x = true
            ∧ x ∈ ([⟨['1'], ['n', 'o'], none⟩, ⟨['2'], ['n', 'i'], none⟩,
                ⟨['3'], ['n', 'i', 'x'], none⟩] : List ComboboxOption))
      ∧ (∃ fz, smartSearch fuseKeep ['n', 'i']
          [⟨['1'], ['n', 'o'], none⟩, ⟨['2'], ['n', 'i'], none⟩,
            ⟨['3'], ['n', 'i', 'x'], none⟩]
        = ([⟨['1'], ['n', 'o'], none⟩, ⟨['2'], ['n', 'i'], none⟩,
            ⟨['3'], ['n', 'i', 'x'], none⟩] : List ComboboxOption).filter
              (isExactMatch ['n', 'i'])
          ++ ([⟨['1'], ['n', 'o'], none⟩, ⟨['2'], ['n', 'i'], none⟩,
              ⟨['3'], ['n', 'i', 'x'], none⟩] : List ComboboxOption).filter
                (prefixOnlyMatch ['n', 'i']) ++ fz
        ∧ ∀ x ∈ fz, fuzzyOnlyMatch ['n', 'i'] x = true
            ∧ x ∈ ([⟨['1'], ['n', 'o'], none⟩, ⟨['2'], ['n', 'i'], none⟩,
                ⟨['3'], ['n', 'i', 'x'], none⟩] : List ComboboxOption))) :=
  ⟨by decide,
    C9_theorem fuseKeep (fun _ _ _ hx => hx) ['n', 'i'] _ (by decide)⟩

/-! ## Slice lemmas for `highlightMatches` -/

/-- Splitting a drop at an intermediate position into a slice and a
later drop. -/
theorem drop_eq_slice_append (l : Str) (a b : Nat) (hab : a ≤ b)
    (hb : b ≤ l.length) : l.drop a = sliceStr l a b ++ l.drop b := by
  unfold sliceStr
  conv_lhs => rw [← List.take_append_drop b l]
  rw [List.drop_append_eq_append_drop]
  have hlen : (l.take b).length = b := by
    rw [List.length_take]
    omega
  rw [hlen, Nat.sub_eq_zero_of_le hab, List.drop_zero]

/-- An empty slice. -/
theorem sliceStr_self (l : Str) (a : Nat) : sliceStr l a a = [] := by
  unfold sliceStr
  rw [List.drop_eq_nil_iff]
  simp [List.length_take]

/-- The segment builder of `highlightMatches` reconstructs the suffix of
the text from the loop position onward, for any span list satisfying the
matcher's contract. -/
theorem concatSegments_buildSegments (text : Str) :
    ∀ (l : List (Nat × Nat)) (lo : Nat), validSpans text l lo = true →
      concatSegments (buildSegments text l lo) = text.drop lo := by
  intro l
  induction l with
  | nil =>
    intro lo _
    unfold buildSegments
    by_cases h : lo < text.length
    · simp [h, concatSegments]
    · push_neg at h
      rw [if_neg (by omega)]
      simp [concatSegments, List.drop_eq_nil_iff]
      omega
  | cons se rest ih =>
    obtain ⟨s, e⟩ := se
    intro lo hv
    unfold validSpans at hv
    simp only [Bool.and_eq_true, decide_eq_true_eq] at hv
    obtain ⟨⟨⟨h1, h2⟩, h3⟩, h4⟩ := hv
    have hrest := ih (e + 1) h4
    unfold buildSegments
    by_cases hlo : lo < s
    · rw [if_pos hlo]
      simp only [concatSegments, List.map_append, List.map_cons, List.map_nil,
        List.flatten_append, List.flatten_cons, List.flatten_nil,
        List.append_nil, List.nil_append, List.append_assoc] at hrest ⊢
      rw [hrest]
      rw [← drop_eq_slice_append text s (e + 1) (by omega) h3]
      rw [← drop_eq_slice_append text lo s (by omega) (by omega)]
    · have hloeq : lo = s := by omega
      rw [if_neg hlo]
      simp only [concatSegments, List.map_append, List.map_cons, List.map_nil,
        List.flatten_append, List.flatten_cons, List.flatten_nil,
        List.append_nil, List.nil_append, List.append_assoc] at hrest ⊢
      rw [hrest]
      rw [← drop_eq_slice_append text s (e + 1) (by omega) h3, hloeq]

/-! ## Claim C6 -/

/-- C6: for every text and query, the segments of `highlightMatches`
concatenate back to exactly the original text, provided the external
matcher's spans obey its contract (ordered, non-overlapping, in-bounds —
`validSpans` after the source's sort); and a blank query, or an absent
match, yields the single non-matched whole-text segment. -/
theorem C6_theorem (fuseIdx : FuseIndices) (text query : Str)
    (hv : ∀ l, fuseIdx text query = some l →
        validSpans text (sortIndicesByStart l) 0 = true) :
    concatSegments (highlightMatches fuseIdx text query) = text
    ∧ (isBlankQuery query = true →
        highlightMatches fuseIdx text query = [⟨text, false⟩])
    ∧ (fuseIdx text query = none →
        highlightMatches fuseIdx text query = [⟨text, false⟩]) := by
  refine ⟨?_, ?_, ?_⟩
  · unfold highlightMatches
    by_cases hb : isBlankQuery query = true
    · simp [hb, concatSegments]
    · rw [Bool.not_eq_true] at hb
      simp only [hb, Bool.false_eq_true, if_false]
      cases hidx : fuseIdx text query with
      | none => simp [concatSegments]
      | some l =>
        have h := concatSegments_buildSegments text (sortIndicesByStart l) 0
          (hv l hidx)
        simpa using h
  · intro hb
    simp [highlightMatches, hb]
  · intro hn
    unfold highlightMatches
    by_cases hb : isBlankQuery query = true
    · simp [hb]
    · rw [Bool.not_eq_true] at hb
      simp [hb, hn]

/-- C6 (witness): a concrete matcher returning the span `[1, 2]` on the
text `"abcd"`. -/
theorem C6_witness :
    validSpans ['a', 'b', 'c', 'd'] (sortIndicesByStart [(1, 2)]) 0 = true
    ∧ concatSegments
        (highlightMatches (fun _ _ => some [(1, 2)])
          ['a', 'b', 'c', 'd'] ['b', 'c'])
      = ['a', 'b', 'c', 'd'] :=
  ⟨by decide,
    (C6_theorem (fun _ _ => some [(1, 2)]) ['a', 'b', 'c', 'd'] ['b', 'c']
      (fun l h => by injection h with h2; rw [← h2]; decide)).1⟩

end Stockflow
